import Mathlib

/-!
# Verification of the chain-interaction layer of gomu-gomu-no-gatling

Shallow embedding of `src/utils.rs`:

* `compute_contract_address` — the Address Deriver (pure function over
  field elements, parameterised by the Pedersen pairwise hash, which lives
  in the external `starknet-rs` crate).
* `get_blocks_with_txs` — the Bounded Block Fetcher, modelled as an
  executable state-passing function whose nondeterministic completion
  order is resolved by an explicit scheduler oracle, instrumented with the
  peak number of in-flight queries.
* `wait_for_tx` — the Confirmation Poller, modelled as a fuel-indexed loop
  over an abstract sequence of RPC responses and an abstract wall clock,
  instrumented with the total time slept.
* `sanitize_filename` — the report-filename sanitizer, including the
  byte-indexed truncation of the Rust source (which can fall inside a
  multi-byte character).

Field elements are modelled as natural numbers; the Montgomery-form
constants of the source are decoded by an explicit Montgomery inverse and
proved equal to their documented standard values.
-/

namespace Gatling

/-! ## Field-element constants (src/utils.rs lines 29–43) -/

/-- The Stark prime 2^251 + 17·2^192 + 1, the modulus of `FieldElement`. -/
def starkPrime : Nat := 2 ^ 251 + 17 * 2 ^ 192 + 1

/-- The Montgomery radix R = 2^256 reduced mod the Stark prime. -/
def montR : Nat := 2 ^ 256 % starkPrime

/-- The inverse of the Montgomery radix mod the Stark prime
(the concrete number; see `montRInv_spec`). -/
def montRInv : Nat :=
  113078212145816603762751633895895194930089271709401121343797004406777446400

/-- Decode a `FieldElement::from_mont([l0, l1, l2, l3])` literal (four
little-endian 64-bit limbs holding the Montgomery form) into the standard
value of the field element. -/
def fromMont (l0 l1 l2 l3 : Nat) : Nat :=
  ((l0 + l1 * 2 ^ 64 + l2 * 2 ^ 128 + l3 * 2 ^ 192) * montRInv) % starkPrime

/-- `PREFIX_CONTRACT_ADDRESS`: the limbs of the source constant
documented as "Cairo string for STARKNET_CONTRACT_ADDRESS". -/
def PREFIX_CONTRACT_ADDRESS : Nat :=
  fromMont 3829237882463328880 17289941567720117366 8635008616843941496
    533439743893157637

/-- `ADDR_BOUND`: the limbs of the source constant documented as
"2 ** 251 - 256". -/
def ADDR_BOUND : Nat :=
  fromMont 18446743986131443745 160989183 18446744073709255680
    576459263475590224

/-- The Cairo short-string packing rule: big-endian ASCII bytes read as a
single number. -/
def cairoShortString (s : List Char) : Nat :=
  s.foldl (fun acc c => acc * 256 + c.toNat) 0

/-- The ASCII characters of "STARKNET_CONTRACT_ADDRESS". -/
def contractAddressChars : List Char :=
  ['S', 'T', 'A', 'R', 'K', 'N', 'E', 'T', '_', 'C', 'O', 'N', 'T', 'R',
    'A', 'C', 'T', '_', 'A', 'D', 'D', 'R', 'E', 'S', 'S']

/-! ## Address Deriver (src/utils.rs lines 46–58) -/

/-- `starknet-rs`'s `compute_hash_on_elements`: fold the pairwise Pedersen
hash over the data starting from zero, then hash the running value with
the data length.  The Pedersen pairwise hash itself lives in the external
crate and is taken as a parameter. -/
def compute_hash_on_elements (pedersen : Nat → Nat → Nat)
    (data : List Nat) : Nat :=
  pedersen (data.foldl pedersen 0) (data.length % starkPrime)

/-- `compute_contract_address` from src/utils.rs: the chained hash over
the five elements `[PREFIX_CONTRACT_ADDRESS, 0, salt, class_hash,
hash(calldata)]`, reduced mod `ADDR_BOUND`. -/
def compute_contract_address (pedersen : Nat → Nat → Nat)
    (salt class_hash : Nat) (constructor_calldata : List Nat) : Nat :=
  compute_hash_on_elements pedersen
    [PREFIX_CONTRACT_ADDRESS, 0, salt, class_hash,
      compute_hash_on_elements pedersen constructor_calldata] % ADDR_BOUND

/-- The hard-coded Montgomery inverse really is the inverse of R. -/
theorem montRInv_spec : montR * montRInv % starkPrime = 1 := by decide

/-- The source's `PREFIX_CONTRACT_ADDRESS` limbs decode to the Cairo
short-string packing of "STARKNET_CONTRACT_ADDRESS". -/
theorem prefix_contract_address_value :
    PREFIX_CONTRACT_ADDRESS = cairoShortString contractAddressChars := by
  decide

/-- The source's `ADDR_BOUND` limbs decode to 2^251 − 256. -/
theorem addr_bound_value : ADDR_BOUND = 2 ^ 251 - 256 := by decide

/-- C1: for every salt, class hash and (possibly empty) calldata sequence,
the Address Deriver returns the chained hash over exactly the five
elements [contract-address domain-separation constant, zero, salt, class
hash, chained hash of the calldata], reduced mod 2^251 − 256.  The
function is total over all inputs by construction (it is a plain `def`
into `Nat` with no error path). -/
theorem compute_contract_address_spec (pedersen : Nat → Nat → Nat)
    (salt class_hash : Nat) (constructor_calldata : List Nat) :
    compute_contract_address pedersen salt class_hash constructor_calldata =
      compute_hash_on_elements pedersen
        [cairoShortString contractAddressChars, 0, salt, class_hash,
          compute_hash_on_elements pedersen constructor_calldata]
        % (2 ^ 251 - 256) := by
  rw [compute_contract_address, prefix_contract_address_value,
    addr_bound_value]

/-- C9: the Address Deriver's output is always strictly below the
address-space bound 2^251 − 256, for every pairwise hash and input. -/
theorem compute_contract_address_lt_bound (pedersen : Nat → Nat → Nat)
    (salt class_hash : Nat) (constructor_calldata : List Nat) :
    compute_contract_address pedersen salt class_hash constructor_calldata
      < 2 ^ 251 - 256 := by
  rw [compute_contract_address, addr_bound_value]
  exact Nat.mod_lt _ (by norm_num)

/-! ## Bounded Block Fetcher (src/utils.rs lines 177–225)

The Rust function drives a `JoinSet` of spawned block queries.  We model a
query's outcome by an environment `env : Nat → RpcResult` (the response of
the node for each block height) and resolve the nondeterministic order in
which in-flight queries complete by a scheduler oracle `sched : List Nat`
whose head (mod the number of in-flight queries) picks the task that
`join_next` returns.  The function is instrumented: the second component
of the result is the peak number of simultaneously in-flight queries
observed during the run. -/

/-- `MaybePendingBlockWithTxs`: a block query's successful payload; the
block record itself is abstracted to a `Nat` payload. -/
inductive MaybePendingBlockWithTxs where
  | Block (b : Nat)
  | PendingBlock
  deriving DecidableEq, Repr

/-- The outcome of one `get_block_with_txs` RPC call: success with a
maybe-pending block, or a transport-level error (with an error code). -/
inductive RpcResult where
  | ok (m : MaybePendingBlockWithTxs)
  | err (e : Nat)
  deriving DecidableEq, Repr

/-- The fetcher's error taxonomy: an underlying query failed, or a block
came back pending (`bail!("Blocks should not be pending!")`). -/
inductive FetchError where
  | queryFailed (e : Nat)
  | pendingBlock
  deriving DecidableEq, Repr

/-- `match_result` from src/utils.rs: accept a finalized block, reject a
pending one. -/
def match_result : MaybePendingBlockWithTxs → Except FetchError Nat
  | .Block block => .ok block
  | .PendingBlock => .error .pendingBlock

/-- `MAX_CONCURRENT` from src/utils.rs line 185. -/
def MAX_CONCURRENT : Nat := 50

/-- `get_blocks_with_txs` from src/utils.rs, as explicit state passing:
`queue` is the part of `block_range` not yet spawned, `inflight` the
heights whose queries are outstanding in the `JoinSet`, `results` the
collected blocks.  Per height: while the in-flight count is at the cap,
join one completed query (chosen by the oracle) and collect it, aborting
the whole run on a transport error or pending block; then spawn the
height's query.  After the range is exhausted, drain the remaining
in-flight queries the same way.  The second component of the value is the
peak in-flight count over the whole run. -/
def runFetch (env : Nat → RpcResult) (sched : List Nat)
    (queue inflight results : List Nat) :
    Except FetchError (List Nat) × Nat :=
  match queue with
  | block_number :: rest =>
    if hcap : MAX_CONCURRENT ≤ inflight.length then
      let i := sched.headD 0 % inflight.length
      match env (inflight.getD i 0) with
      | .err e => (.error (.queryFailed e), inflight.length)
      | .ok next =>
        match match_result next with
        | .error fe => (.error fe, inflight.length)
        | .ok block =>
          let r := runFetch env sched.tail (block_number :: rest)
            (inflight.eraseIdx i) (results ++ [block])
          (r.1, max inflight.length r.2)
    else
      let r := runFetch env sched rest (inflight ++ [block_number]) results
      (r.1, max inflight.length r.2)
  | [] =>
    if hne : inflight = [] then (.ok results, 0)
    else
      let i := sched.headD 0 % inflight.length
      match env (inflight.getD i 0) with
      | .err e => (.error (.queryFailed e), inflight.length)
      | .ok next =>
        match match_result next with
        | .error fe => (.error fe, inflight.length)
        | .ok block =>
          let r := runFetch env sched.tail []
            (inflight.eraseIdx i) (results ++ [block])
          (r.1, max inflight.length r.2)
termination_by (queue.length, inflight.length)
decreasing_by
  · apply Prod.Lex.right
    have hpos : 0 < inflight.length := by
      simp only [MAX_CONCURRENT] at hcap; omega
    have : (inflight.eraseIdx (sched.headD 0 % inflight.length)).length
        = inflight.length - 1 :=
      List.length_eraseIdx_of_lt (Nat.mod_lt _ hpos)
    omega
  · apply Prod.Lex.left
    simp
  · apply Prod.Lex.right
    have hpos : 0 < inflight.length := List.length_pos.mpr hne
    have : (inflight.eraseIdx (sched.headD 0 % inflight.length)).length
        = inflight.length - 1 :=
      List.length_eraseIdx_of_lt (Nat.mod_lt _ hpos)
    omega

/-- The fetcher proper: start with an empty `JoinSet` and empty results. -/
def get_blocks_with_txs (env : Nat → RpcResult) (sched : List Nat)
    (block_range : List Nat) : Except FetchError (List Nat) × Nat :=
  runFetch env sched block_range [] []

theorem getD_cons_eraseIdx_perm (l : List Nat) (i : Nat) (h : i < l.length) :
    List.Perm (l.getD i 0 :: l.eraseIdx i) l := by
  rw [List.getD_eq_getElem l 0 h]
  exact ((List.perm_cons_erase (List.getElem_mem h)).trans
    ((List.erase_getElem h).cons _)).symm

theorem runFetch_peak_le (env : Nat → RpcResult) (sched queue inflight results : List Nat)
    (h : inflight.length ≤ MAX_CONCURRENT) :
    (runFetch env sched queue inflight results).2 ≤ MAX_CONCURRENT := by
  revert h
  induction sched, queue, inflight, results using runFetch.induct env with
  | case1 sched inflight results bn rest hcap i e henv =>
    intro h
    rw [runFetch, dif_pos hcap]
    simp only [henv]
    exact h
  | case2 sched inflight results bn rest hcap i next henv fe hmr =>
    intro h
    rw [runFetch, dif_pos hcap]
    simp only [henv, hmr]
    exact h
  | case3 sched inflight results bn rest hcap i next henv block hmr ih =>
    intro h
    rw [runFetch, dif_pos hcap]
    simp only [henv, hmr]
    have hpos : 0 < inflight.length := by
      simp only [MAX_CONCURRENT] at hcap; omega
    have hlen : (inflight.eraseIdx i).length = inflight.length - 1 :=
      List.length_eraseIdx_of_lt (Nat.mod_lt _ hpos)
    have := ih (by omega)
    simp only [sup_le_iff]
    exact ⟨h, this⟩
  | case4 sched inflight results bn rest hcap ih =>
    intro h
    rw [runFetch, dif_neg hcap]
    have : (inflight ++ [bn]).length ≤ MAX_CONCURRENT := by
      simp only [MAX_CONCURRENT] at *
      simp; omega
    have := ih this
    simp only [sup_le_iff]
    exact ⟨h, this⟩
  | case5 sched results =>
    intro h
    rw [runFetch]
    simp [MAX_CONCURRENT]
  | case6 sched inflight results hne i e henv =>
    intro h
    rw [runFetch, dif_neg hne]
    simp only [henv]
    exact h
  | case7 sched inflight results hne i next henv fe hmr =>
    intro h
    rw [runFetch, dif_neg hne]
    simp only [henv, hmr]
    exact h
  | case8 sched inflight results hne i next henv block hmr ih =>
    intro h
    rw [runFetch, dif_neg hne]
    simp only [henv, hmr]
    have hpos : 0 < inflight.length := List.length_pos.mpr hne
    have hlen : (inflight.eraseIdx i).length = inflight.length - 1 :=
      List.length_eraseIdx_of_lt (Nat.mod_lt _ hpos)
    have := ih (by omega)
    simp only [sup_le_iff]
    exact ⟨h, this⟩

theorem getD_mem_of_lt (l : List Nat) (i : Nat) (h : i < l.length) :
    l.getD i 0 ∈ l := by
  rw [List.getD_eq_getElem l 0 h]
  exact List.getElem_mem h

theorem runFetch_ok_multiset (env : Nat → RpcResult) (B : Nat → Nat)
    (sched queue inflight results : List Nat)
    (hq : ∀ b ∈ queue, env b = .ok (.Block (B b)))
    (hi : ∀ b ∈ inflight, env b = .ok (.Block (B b))) :
    ∃ res, (runFetch env sched queue inflight results).1 = .ok res ∧
      (res : Multiset Nat) =
        ↑results + ↑(inflight.map B) + ↑(queue.map B) := by
  revert hq hi
  induction sched, queue, inflight, results using runFetch.induct env with
  | case1 sched inflight results bn rest hcap i e henv =>
    intro hq hi
    exfalso
    have hpos : 0 < inflight.length := by
      simp only [MAX_CONCURRENT] at hcap; omega
    have hc := hi _ (getD_mem_of_lt inflight i (Nat.mod_lt _ hpos))
    rw [henv] at hc
    exact RpcResult.noConfusion hc
  | case2 sched inflight results bn rest hcap i next henv fe hmr =>
    intro hq hi
    exfalso
    have hpos : 0 < inflight.length := by
      simp only [MAX_CONCURRENT] at hcap; omega
    have hc := hi _ (getD_mem_of_lt inflight i (Nat.mod_lt _ hpos))
    rw [henv] at hc
    injection hc with hc
    subst hc
    simp [match_result] at hmr
  | case3 sched inflight results bn rest hcap i next henv block hmr ih =>
    intro hq hi
    have hpos : 0 < inflight.length := by
      simp only [MAX_CONCURRENT] at hcap; omega
    have hc := hi _ (getD_mem_of_lt inflight i (Nat.mod_lt _ hpos))
    rw [henv] at hc
    injection hc with hc
    subst hc
    have hblock : block = B (inflight.getD i 0) := by
      simp only [match_result, Except.ok.injEq] at hmr
      exact hmr.symm
    have hperm : List.Perm ((inflight.getD i 0 :: inflight.eraseIdx i).map B)
        (inflight.map B) :=
      (getD_cons_eraseIdx_perm inflight i (Nat.mod_lt _ hpos)).map B
    obtain ⟨res, hres, hmul⟩ := ih hq
      (fun b hb => hi b (List.mem_of_mem_eraseIdx hb))
    refine ⟨res, ?_, ?_⟩
    · rw [runFetch, dif_pos hcap]
      simp only [henv, hmr]
      exact hres
    · have hcoe : (↑(List.map B inflight) : Multiset Nat)
          = {B (inflight.getD i 0)} + ↑(List.map B (inflight.eraseIdx i)) := by
        have h2 := (Multiset.coe_eq_coe.mpr hperm).symm
        rw [List.map_cons, ← Multiset.cons_coe, ← Multiset.singleton_add] at h2
        exact h2
      rw [hmul, hblock, hcoe]
      simp only [← Multiset.coe_add, Multiset.coe_singleton]
      abel
  | case4 sched inflight results bn rest hcap ih =>
    intro hq hi
    obtain ⟨res, hres, hmul⟩ := ih
      (fun b hb => hq b (List.mem_cons_of_mem _ hb))
      (by
        intro b hb
        rcases List.mem_append.mp hb with hb | hb
        · exact hi b hb
        · simp only [List.mem_singleton] at hb
          subst hb
          exact hq _ (List.mem_cons_self _ _))
    refine ⟨res, ?_, ?_⟩
    · rw [runFetch, dif_neg hcap]
      exact hres
    · rw [hmul]
      simp only [List.map_append, List.map_cons, List.map_nil,
        ← Multiset.coe_add, Multiset.coe_singleton,
        ← Multiset.cons_coe, ← Multiset.singleton_add]
      abel
  | case5 sched results =>
    intro hq hi
    refine ⟨results, ?_, by simp⟩
    rw [runFetch]
    simp
  | case6 sched inflight results hne i e henv =>
    intro hq hi
    exfalso
    have hpos : 0 < inflight.length := List.length_pos.mpr hne
    have hc := hi _ (getD_mem_of_lt inflight i (Nat.mod_lt _ hpos))
    rw [henv] at hc
    exact RpcResult.noConfusion hc
  | case7 sched inflight results hne i next henv fe hmr =>
    intro hq hi
    exfalso
    have hpos : 0 < inflight.length := List.length_pos.mpr hne
    have hc := hi _ (getD_mem_of_lt inflight i (Nat.mod_lt _ hpos))
    rw [henv] at hc
    injection hc with hc
    subst hc
    simp [match_result] at hmr
  | case8 sched inflight results hne i next henv block hmr ih =>
    intro hq hi
    have hpos : 0 < inflight.length := List.length_pos.mpr hne
    have hc := hi _ (getD_mem_of_lt inflight i (Nat.mod_lt _ hpos))
    rw [henv] at hc
    injection hc with hc
    subst hc
    have hblock : block = B (inflight.getD i 0) := by
      simp only [match_result, Except.ok.injEq] at hmr
      exact hmr.symm
    have hperm : List.Perm ((inflight.getD i 0 :: inflight.eraseIdx i).map B)
        (inflight.map B) :=
      (getD_cons_eraseIdx_perm inflight i (Nat.mod_lt _ hpos)).map B
    obtain ⟨res, hres, hmul⟩ := ih hq
      (fun b hb => hi b (List.mem_of_mem_eraseIdx hb))
    refine ⟨res, ?_, ?_⟩
    · rw [runFetch, dif_neg hne]
      simp only [henv, hmr]
      exact hres
    · have hcoe : (↑(List.map B inflight) : Multiset Nat)
          = {B (inflight.getD i 0)} + ↑(List.map B (inflight.eraseIdx i)) := by
        have h2 := (Multiset.coe_eq_coe.mpr hperm).symm
        rw [List.map_cons, ← Multiset.cons_coe, ← Multiset.singleton_add] at h2
        exact h2
      rw [hmul, hblock, hcoe]
      simp only [← Multiset.coe_add, Multiset.coe_singleton]
      abel

theorem runFetch_ok_env (env : Nat → RpcResult)
    (sched queue inflight results : List Nat) :
    ∀ res, (runFetch env sched queue inflight results).1 = .ok res →
      ∀ b, (b ∈ queue ∨ b ∈ inflight) → ∃ blk, env b = .ok (.Block blk) := by
  induction sched, queue, inflight, results using runFetch.induct env with
  | case1 sched inflight results bn rest hcap i e henv =>
    intro res hok
    rw [runFetch, dif_pos hcap] at hok
    simp only [henv] at hok
    exact absurd hok (by simp)
  | case2 sched inflight results bn rest hcap i next henv fe hmr =>
    intro res hok
    rw [runFetch, dif_pos hcap] at hok
    simp only [henv, hmr] at hok
    exact absurd hok (by simp)
  | case3 sched inflight results bn rest hcap i next henv block hmr ih =>
    intro res hok b hb
    rw [runFetch, dif_pos hcap] at hok
    simp only [henv, hmr] at hok
    have hpos : 0 < inflight.length := by
      simp only [MAX_CONCURRENT] at hcap; omega
    have hnext : next = .Block block := by
      cases next with
      | Block blk => simp only [match_result, Except.ok.injEq] at hmr; rw [hmr]
      | PendingBlock => simp [match_result] at hmr
    rcases hb with hb | hb
    · exact ih res hok b (Or.inl hb)
    · by_cases hbc : b ∈ inflight.eraseIdx i
      · exact ih res hok b (Or.inr hbc)
      · have hmem : b ∈ inflight.getD i 0 :: inflight.eraseIdx i :=
          (getD_cons_eraseIdx_perm inflight i (Nat.mod_lt _ hpos)).mem_iff.mpr hb
        rcases List.mem_cons.mp hmem with hb2 | hb2
        · subst hb2
          exact ⟨block, by rw [henv, hnext]⟩
        · exact absurd hb2 hbc
  | case4 sched inflight results bn rest hcap ih =>
    intro res hok b hb
    rw [runFetch, dif_neg hcap] at hok
    have hok' : (runFetch env sched rest (inflight ++ [bn]) results).1
        = .ok res := hok
    rcases hb with hb | hb
    · rcases List.mem_cons.mp hb with hb2 | hb2
      · subst hb2
        exact ih res hok' b (Or.inr (List.mem_append.mpr (Or.inr (by simp))))
      · exact ih res hok' b (Or.inl hb2)
    · exact ih res hok' b (Or.inr (List.mem_append.mpr (Or.inl hb)))
  | case5 sched results =>
    intro res hok b hb
    simp at hb
  | case6 sched inflight results hne i e henv =>
    intro res hok
    rw [runFetch, dif_neg hne] at hok
    simp only [henv] at hok
    exact absurd hok (by simp)
  | case7 sched inflight results hne i next henv fe hmr =>
    intro res hok
    rw [runFetch, dif_neg hne] at hok
    simp only [henv, hmr] at hok
    exact absurd hok (by simp)
  | case8 sched inflight results hne i next henv block hmr ih =>
    intro res hok b hb
    rw [runFetch, dif_neg hne] at hok
    simp only [henv, hmr] at hok
    have hpos : 0 < inflight.length := List.length_pos.mpr hne
    have hnext : next = .Block block := by
      cases next with
      | Block blk => simp only [match_result, Except.ok.injEq] at hmr; rw [hmr]
      | PendingBlock => simp [match_result] at hmr
    rcases hb with hb | hb
    · simp at hb
    · by_cases hbc : b ∈ inflight.eraseIdx i
      · exact ih res hok b (Or.inr hbc)
      · have hmem : b ∈ inflight.getD i 0 :: inflight.eraseIdx i :=
          (getD_cons_eraseIdx_perm inflight i (Nat.mod_lt _ hpos)).mem_iff.mpr hb
        rcases List.mem_cons.mp hmem with hb2 | hb2
        · subst hb2
          exact ⟨block, by rw [henv, hnext]⟩
        · exact absurd hb2 hbc

/-- C2: for any environment, completion schedule and height sequence, the
number of concurrently outstanding block queries never exceeds 50 at any
instant of the run (the instrumented peak in-flight count is at most the
cap); a new query is spawned only when the in-flight count is below the
cap, a completed query being collected first otherwise. -/
theorem get_blocks_with_txs_concurrency_cap (env : Nat → RpcResult)
    (sched block_range : List Nat) :
    (get_blocks_with_txs env sched block_range).2 ≤ 50 :=
  runFetch_peak_le env sched block_range [] [] (by simp [MAX_CONCURRENT])

/-- C3: if every requested height resolves to a finalized block and no
query fails, the fetcher succeeds with exactly one record per requested
height — the result is a permutation of the requested heights' blocks
(no duplicates, no omissions), whatever the completion order. -/
theorem get_blocks_with_txs_complete (env : Nat → RpcResult) (B : Nat → Nat)
    (sched block_range : List Nat)
    (henv : ∀ b ∈ block_range, env b = .ok (.Block (B b))) :
    ∃ res, (get_blocks_with_txs env sched block_range).1 = .ok res ∧
      res.length = block_range.length ∧
      List.Perm res (block_range.map B) := by
  obtain ⟨res, hres, hmul⟩ :=
    runFetch_ok_multiset env B sched block_range [] [] henv (by simp)
  have hperm : List.Perm res (block_range.map B) := by
    rw [← Multiset.coe_eq_coe]
    simpa using hmul
  exact ⟨res, hres, by simp [hperm.length_eq], hperm⟩

theorem get_blocks_with_txs_complete_witness :
    (∀ b ∈ [100, 101, 102],
        (fun h => RpcResult.ok (.Block (h + 1))) b
          = RpcResult.ok (.Block (b + 1))) ∧
      ∃ res, (get_blocks_with_txs (fun h => RpcResult.ok (.Block (h + 1)))
            [] [100, 101, 102]).1 = .ok res ∧
        res.length = [100, 101, 102].length ∧
        List.Perm res ([100, 101, 102].map (fun b => b + 1)) :=
  ⟨by decide,
    get_blocks_with_txs_complete (fun h => RpcResult.ok (.Block (h + 1)))
      (fun b => b + 1) [] [100, 101, 102] (by decide)⟩

/-- C4: if any requested height resolves to a pending block or any query
fails with a transport error, the whole fetch returns an error; the error
value carries no block records, so already-collected results are
discarded and a pending block is never returned. -/
theorem get_blocks_with_txs_aborts (env : Nat → RpcResult)
    (sched block_range : List Nat) (b : Nat) (hmem : b ∈ block_range)
    (hbad : env b = .ok .PendingBlock ∨ ∃ e, env b = .err e) :
    ∃ fe, (get_blocks_with_txs env sched block_range).1 = .error fe := by
  cases hres : (get_blocks_with_txs env sched block_range).1 with
  | ok res =>
    exfalso
    obtain ⟨blk, hblk⟩ :=
      runFetch_ok_env env sched block_range [] [] res hres b (Or.inl hmem)
    rcases hbad with h1 | ⟨e, h2⟩
    · rw [h1] at hblk
      exact MaybePendingBlockWithTxs.noConfusion (RpcResult.ok.inj hblk)
    · rw [h2] at hblk
      exact RpcResult.noConfusion hblk
  | error fe => exact ⟨fe, rfl⟩

theorem get_blocks_with_txs_aborts_witness :
    (2 ∈ [1, 2, 3] ∧
        (fun h => if h = 2 then RpcResult.ok .PendingBlock
          else RpcResult.ok (.Block h)) 2 = RpcResult.ok .PendingBlock) ∧
      ∃ fe, (get_blocks_with_txs
          (fun h => if h = 2 then RpcResult.ok .PendingBlock
            else RpcResult.ok (.Block h)) [] [1, 2, 3]).1 = .error fe :=
  ⟨⟨by decide, by decide⟩,
    get_blocks_with_txs_aborts
      (fun h => if h = 2 then RpcResult.ok .PendingBlock
        else RpcResult.ok (.Block h))
      [] [1, 2, 3] 2 (by decide) (Or.inl (by decide))⟩

/-! ## Confirmation Poller (src/utils.rs lines 118–175)

`wait_for_tx` loops: abort with a timeout error once the elapsed wall
time reaches `WAIT_FOR_TX_TIMEOUT`; otherwise query the receipt and act
on it.  We model the node by the response sequence `resp : Nat → ...`
(the answer to the n-th poll), the wall clock by `elapsed : Nat → Nat`
(the elapsed time, in milliseconds, observed at the top of the n-th
iteration), and the unbounded `loop` by a fuel parameter: `none` means
the fuel ran out before the loop returned.  The second component of the
value is the total time spent sleeping `check_interval` between polls. -/

/-- A transaction's execution result inside a receipt. -/
inductive ExecResult where
  | Succeeded
  | Reverted (reason : String)
  deriving DecidableEq, Repr

/-- The outcome of one `get_transaction_receipt` RPC call: a finalized
receipt, a pending receipt, the distinguished `TransactionHashNotFound`
error, or any other transport-level error (with an error code). -/
inductive ReceiptResponse where
  | Receipt (r : ExecResult)
  | PendingReceipt (r : ExecResult)
  | errNotFound
  | errOther (e : Nat)
  deriving DecidableEq, Repr

/-- The poller's terminal outcome, mirroring `Result<()>` of the source:
`Succeeded` is `Ok(())`; the error constructors carry the transaction
hash exactly as the source's error messages format it in. -/
inductive TxOutcome where
  | Succeeded
  | Reverted (tx : Nat) (reason : String)
  | TimedOut (tx : Nat)
  | TransportError (tx : Nat) (e : Nat)
  deriving DecidableEq, Repr

/-- `WAIT_FOR_TX_TIMEOUT` from src/utils.rs line 118: 60 seconds, in
milliseconds. -/
def WAIT_FOR_TX_TIMEOUT : Nat := 60000

/-- `wait_for_tx` from src/utils.rs.  `n` is the poll-iteration counter
(zero at the start of the session); `check_interval` the caller-supplied
sleep between polls. -/
def wait_for_tx (tx : Nat) (resp : Nat → ReceiptResponse)
    (elapsed : Nat → Nat) (check_interval : Nat) :
    Nat → Nat → Option TxOutcome × Nat
  | 0, _ => (none, 0)
  | fuel + 1, n =>
    if WAIT_FOR_TX_TIMEOUT ≤ elapsed n then (some (.TimedOut tx), 0)
    else
      match resp n with
      | .Receipt .Succeeded => (some .Succeeded, 0)
      | .Receipt (.Reverted reason) => (some (.Reverted tx reason), 0)
      | .PendingReceipt r =>
        match r with
        | .Reverted reason => (some (.Reverted tx reason), 0)
        | .Succeeded =>
          let rec' := wait_for_tx tx resp elapsed check_interval fuel (n + 1)
          (rec'.1, check_interval + rec'.2)
      | .errNotFound =>
        let rec' := wait_for_tx tx resp elapsed check_interval fuel (n + 1)
        (rec'.1, check_interval + rec'.2)
      | .errOther e => (some (.TransportError tx e), 0)

/-- C5: if every poll reports "transaction hash not found" (or a pending
non-reverted receipt) and the elapsed time reaches the 60-second ceiling
at some iteration the fuel covers, the poller returns `TimedOut` for the
transaction. -/
theorem wait_for_tx_timeout (tx : Nat) (resp : Nat → ReceiptResponse)
    (elapsed : Nat → Nat) (check_interval fuel m : Nat)
    (hresp : ∀ k, resp k = .errNotFound ∨ resp k = .PendingReceipt .Succeeded)
    (helapsed : WAIT_FOR_TX_TIMEOUT ≤ elapsed m) (hfuel : m < fuel) :
    (wait_for_tx tx resp elapsed check_interval fuel 0).1
      = some (.TimedOut tx) := by
  suffices h : ∀ fuel n, n ≤ m → m - n < fuel →
      (wait_for_tx tx resp elapsed check_interval fuel n).1
        = some (.TimedOut tx) by
    exact h fuel 0 (Nat.zero_le m) (by omega)
  intro fuel
  induction fuel with
  | zero => intro n hn hf; omega
  | succ fuel ih =>
    intro n hn hf
    rw [wait_for_tx]
    by_cases ht : WAIT_FOR_TX_TIMEOUT ≤ elapsed n
    · simp [ht]
    · have hnm : n < m := by
        rcases Nat.lt_or_ge n m with h | h
        · exact h
        · exfalso; have : n = m := by omega
          subst this; exact ht helapsed
      rw [if_neg ht]
      rcases hresp n with hr | hr <;> rw [hr] <;>
        simpa using ih (n + 1) (by omega) (by omega)

theorem wait_for_tx_timeout_witness :
    (∀ k, (fun _ : Nat => ReceiptResponse.errNotFound) k
          = ReceiptResponse.errNotFound ∨
        (fun _ : Nat => ReceiptResponse.errNotFound) k
          = .PendingReceipt .Succeeded) ∧
      (wait_for_tx 7 (fun _ => .errNotFound) (fun n => n * 1000)
          1000 61 0).1 = some (.TimedOut 7) :=
  ⟨fun _ => Or.inl rfl,
    wait_for_tx_timeout 7 (fun _ => .errNotFound) (fun n => n * 1000)
      1000 61 60 (fun _ => Or.inl rfl) (by decide) (by decide)⟩

/-- C6: whenever a poll (reached before the timeout ceiling) returns a
finalized receipt, the poller terminates on that poll, with `Succeeded`
on a successful execution result and `Reverted` carrying the reason on a
reverted one; it sleeps no further interval and never re-polls (the
result holds for every remaining fuel, in particular fuel 1, which
permits no further poll). -/
theorem wait_for_tx_receipt_conclusive (tx : Nat)
    (resp : Nat → ReceiptResponse) (elapsed : Nat → Nat)
    (check_interval fuel n : Nat) (reason : String)
    (ht : elapsed n < WAIT_FOR_TX_TIMEOUT) :
    (resp n = .Receipt .Succeeded →
      wait_for_tx tx resp elapsed check_interval (fuel + 1) n
        = (some .Succeeded, 0)) ∧
    (resp n = .Receipt (.Reverted reason) →
      wait_for_tx tx resp elapsed check_interval (fuel + 1) n
        = (some (.Reverted tx reason), 0)) := by
  constructor <;> intro hr <;> rw [wait_for_tx, if_neg (by omega), hr]

theorem wait_for_tx_receipt_conclusive_witness :
    ((fun _ : Nat => 100) 0 < WAIT_FOR_TX_TIMEOUT ∧
        (fun _ : Nat => ReceiptResponse.Receipt (.Reverted "gas")) 0
          = .Receipt (.Reverted "gas")) ∧
      wait_for_tx 3 (fun _ => .Receipt (.Reverted "gas")) (fun _ => 100)
          500 1 0 = (some (.Reverted 3 "gas"), 0) :=
  ⟨⟨by decide, rfl⟩,
    (wait_for_tx_receipt_conclusive 3 (fun _ => .Receipt (.Reverted "gas"))
      (fun _ => 100) 500 0 0 "gas" (by decide)).2 rfl⟩

/-- C7: a pending receipt whose execution result already signals
reversion makes the poller (reached before the timeout ceiling) return
`Reverted` with the reason immediately — with zero total sleep and for
any remaining fuel, in particular fuel 1, so no interval is waited and no
finalization is awaited; a pending receipt whose execution result does
not signal reversion instead adds one `check_interval` of sleep and
re-polls at the next iteration. -/
theorem wait_for_tx_pending_receipt (tx : Nat)
    (resp : Nat → ReceiptResponse) (elapsed : Nat → Nat)
    (check_interval fuel n : Nat) (reason : String)
    (ht : elapsed n < WAIT_FOR_TX_TIMEOUT) :
    (resp n = .PendingReceipt (.Reverted reason) →
      wait_for_tx tx resp elapsed check_interval (fuel + 1) n
        = (some (.Reverted tx reason), 0)) ∧
    (resp n = .PendingReceipt .Succeeded →
      wait_for_tx tx resp elapsed check_interval (fuel + 1) n
        = ((wait_for_tx tx resp elapsed check_interval fuel (n + 1)).1,
            check_interval
              + (wait_for_tx tx resp elapsed check_interval fuel (n + 1)).2)) := by
  constructor <;> intro hr <;> rw [wait_for_tx, if_neg (by omega), hr]

theorem wait_for_tx_pending_receipt_witness :
    ((fun _ : Nat => 0) 0 < WAIT_FOR_TX_TIMEOUT ∧
        (fun _ : Nat => ReceiptResponse.PendingReceipt (.Reverted "oops")) 0
          = .PendingReceipt (.Reverted "oops")) ∧
      wait_for_tx 9 (fun _ => .PendingReceipt (.Reverted "oops"))
          (fun _ => 0) 250 1 0 = (some (.Reverted 9 "oops"), 0) :=
  ⟨⟨by decide, rfl⟩,
    (wait_for_tx_pending_receipt 9
        (fun _ => .PendingReceipt (.Reverted "oops")) (fun _ => 0) 250 0 0
        "oops" (by decide)).1 rfl⟩

/-- C8: a transport-level failure other than the distinguished
"transaction hash not found" case makes the poller (reached before the
timeout ceiling) terminate at once with `TransportError`, wrapping the
underlying error together with the transaction hash; no retry happens
(the result holds for any remaining fuel, in particular fuel 1, and the
total sleep is zero). -/
theorem wait_for_tx_transport_error (tx : Nat)
    (resp : Nat → ReceiptResponse) (elapsed : Nat → Nat)
    (check_interval fuel n e : Nat)
    (ht : elapsed n < WAIT_FOR_TX_TIMEOUT) (hr : resp n = .errOther e) :
    wait_for_tx tx resp elapsed check_interval (fuel + 1) n
      = (some (.TransportError tx e), 0) := by
  rw [wait_for_tx, if_neg (by omega), hr]

theorem wait_for_tx_transport_error_witness :
    ((fun _ : Nat => 5) 0 < WAIT_FOR_TX_TIMEOUT ∧
        (fun _ : Nat => ReceiptResponse.errOther 42) 0 = .errOther 42) ∧
      wait_for_tx 11 (fun _ => .errOther 42) (fun _ => 5) 100 1 0
        = (some (.TransportError 11 42), 0) :=
  ⟨⟨by decide, rfl⟩,
    wait_for_tx_transport_error 11 (fun _ => .errOther 42) (fun _ => 5)
      100 0 0 42 (by decide) rfl⟩

/-! ## Filename sanitizer (src/utils.rs lines 227–254)

The Rust function lowercases the input (`str::to_lowercase`, whose
Unicode case-mapping table lives in the standard library and is taken
here as a parameter `toLower`), replaces invalid and control characters
by underscores, and — when the result exceeds 255 bytes — truncates it
with the byte slice `&sanitized[..255]`.  A Rust byte slice of a `String`
panics when the end index is not a UTF-8 character boundary; the model
returns `none` for that panic. -/

/-- The `invalid_chars` set from src/utils.rs line 230. -/
def invalid_chars : List Char :=
  ['/', '\\', ':', '*', '?', '"', '<', '>', '|', ' ']

/-- Rust's `char::is_control`: the Unicode Cc category, i.e. U+0000 –
U+001F and U+007F – U+009F. -/
def rustIsControl (c : Char) : Bool :=
  c.toNat < 32 || (127 ≤ c.toNat && c.toNat ≤ 159)

/-- The per-character replacement of the sanitizer's `map` closure. -/
def replaceInvalid (c : Char) : Char :=
  if invalid_chars.contains c || rustIsControl c then '_' else c

/-- The UTF-8 encoded width of a character in bytes. -/
def utf8CharLen (c : Char) : Nat :=
  if c.toNat < 128 then 1
  else if c.toNat < 2048 then 2
  else if c.toNat < 65536 then 3
  else 4

/-- The UTF-8 byte length of a character list (Rust's `String::len`). -/
def utf8Len (l : List Char) : Nat := (l.map utf8CharLen).sum

/-- Rust's byte slice `&s[..n]`: the characters filling exactly the
first `n` bytes of the UTF-8 encoding, or `none` — a panic — when byte
index `n` is out of bounds or not a character boundary. -/
def byteSlice : List Char → Nat → Option (List Char)
  | _, 0 => some []
  | [], _ + 1 => none
  | c :: cs, n + 1 =>
    if utf8CharLen c ≤ n + 1 then
      (byteSlice cs (n + 1 - utf8CharLen c)).map (fun l => c :: l)
    else none

/-- `sanitize_filename` from src/utils.rs: lowercase, replace invalid and
control characters by underscores, truncate to at most 255 bytes.
`none` models a panic of the byte-indexed truncation. -/
def sanitize_filename (toLower : List Char → List Char)
    (input : List Char) : Option (List Char) :=
  let sanitized := (toLower input).map replaceInvalid
  let max_length := 255
  if utf8Len sanitized > max_length then byteSlice sanitized max_length
  else some sanitized

theorem byteSlice_utf8Len (l : List Char) (n : Nat) (out : List Char)
    (h : byteSlice l n = some out) : utf8Len out = n := by
  induction l generalizing n out with
  | nil =>
    cases n with
    | zero => simp [byteSlice] at h; subst h; simp [utf8Len]
    | succ n => simp [byteSlice] at h
  | cons c cs ih =>
    cases n with
    | zero => simp [byteSlice] at h; subst h; simp [utf8Len]
    | succ n =>
      rw [byteSlice] at h
      by_cases hc : utf8CharLen c ≤ n + 1
      · rw [if_pos hc] at h
        cases hrec : byteSlice cs (n + 1 - utf8CharLen c) with
        | none => rw [hrec] at h; exact Option.noConfusion h
        | some out' =>
          rw [hrec] at h
          have h2 : some (c :: out') = some out := h
          injection h2 with h2
          subst h2
          have hlen := ih _ _ hrec
          simp only [utf8Len, List.map_cons, List.sum_cons]
          simp only [utf8Len] at hlen
          omega
      · rw [if_neg hc] at h
        exact Option.noConfusion h

theorem byteSlice_append (l : List Char) (n : Nat) (out : List Char)
    (h : byteSlice l n = some out) : ∃ rest, l = out ++ rest := by
  induction l generalizing n out with
  | nil =>
    cases n with
    | zero => simp [byteSlice] at h; subst h; exact ⟨[], rfl⟩
    | succ n => simp [byteSlice] at h
  | cons c cs ih =>
    cases n with
    | zero =>
      simp [byteSlice] at h
      subst h
      exact ⟨c :: cs, rfl⟩
    | succ n =>
      rw [byteSlice] at h
      by_cases hc : utf8CharLen c ≤ n + 1
      · rw [if_pos hc] at h
        cases hrec : byteSlice cs (n + 1 - utf8CharLen c) with
        | none => rw [hrec] at h; exact Option.noConfusion h
        | some out' =>
          rw [hrec] at h
          have h2 : some (c :: out') = some out := h
          injection h2 with h2
          subst h2
          obtain ⟨rest, hrest⟩ := ih _ _ hrec
          exact ⟨rest, by simp [hrest]⟩
      · rw [if_neg hc] at h
        exact Option.noConfusion h

set_option maxRecDepth 4000 in
/-- C10 counterexample: `sanitize_filename` is not total.  On the input
of 200 copies of 'é' — a two-byte character that Rust's `to_lowercase`
maps to itself (so the identity stands in for the case mapping here),
that is neither in the invalid set nor a control character — the
sanitized string is 400 bytes long, and byte index 255 falls in the
middle of a character, so the truncation `&sanitized[..255]` panics. -/
theorem sanitize_filename_panics :
    sanitize_filename (fun l => l) (List.replicate 200 'é') = none := by
  decide

/-- C10 (amended): whenever `sanitize_filename` returns (does not panic),
the returned string is at most 255 bytes long and is a prefix of the
per-character sanitization of the lowercased input (every invalid or
control character replaced by '_', every other character kept); and
whenever that sanitized string is at most 255 bytes — in particular for
every all-ASCII input — the function does return it whole.  Totality
fails only through the byte-indexed truncation, as the counterexample
shows. -/
theorem sanitize_filename_safe (toLower : List Char → List Char)
    (input : List Char) :
    (∀ out, sanitize_filename toLower input = some out →
      utf8Len out ≤ 255 ∧
        ∃ rest, (toLower input).map replaceInvalid = out ++ rest) ∧
    (utf8Len ((toLower input).map replaceInvalid) ≤ 255 →
      sanitize_filename toLower input
        = some ((toLower input).map replaceInvalid)) := by
  constructor
  · intro out hout
    rw [sanitize_filename] at hout
    by_cases htr : utf8Len ((toLower input).map replaceInvalid) > 255
    · rw [if_pos htr] at hout
      refine ⟨?_, byteSlice_append _ _ _ hout⟩
      rw [byteSlice_utf8Len _ _ _ hout]
    · rw [if_neg htr] at hout
      injection hout with hout
      subst hout
      exact ⟨by omega, [], by simp⟩
  · intro hle
    rw [sanitize_filename, if_neg (by omega)]

theorem sanitize_filename_safe_witness :
    (sanitize_filename (fun l => l) ['a', '/', 'B'] = some ['a', '_', 'B'] ∧
        utf8Len (['a', '/', 'B'].map replaceInvalid) ≤ 255) ∧
      (utf8Len ['a', '_', 'B'] ≤ 255 ∧
        ∃ rest, ['a', '/', 'B'].map replaceInvalid = ['a', '_', 'B'] ++ rest) ∧
      sanitize_filename (fun l => l) ['a', '/', 'B']
        = some (['a', '/', 'B'].map replaceInvalid) :=
  ⟨⟨by decide, by decide⟩,
    (sanitize_filename_safe (fun l => l) ['a', '/', 'B']).1 ['a', '_', 'B']
      (by decide),
    (sanitize_filename_safe (fun l => l) ['a', '/', 'B']).2 (by decide)⟩

end Gatling
